import Mathlib

/-!
Shallow embedding of the support/resistance level-detection engine of
`src/level_detector.py` (class `Level`, class `LevelDetector`), together
with the scipy helper the pivot detector calls
(`scipy.signal.argrelextrema`, default boundary mode `clip`).

Prices, volumes and scores are embedded as rationals, timestamps as
natural day numbers, a DataFrame as a list of bars. Python exceptions are
embedded with `Except`: the module reads the name `logger` without ever
defining or importing it (NameError), calls `Level.add_touch` with three
arguments against a two-parameter signature (TypeError), and reads the
attributes `avg_volume_at_level` / `age_days` that no code assigns
(AttributeError).
-/

/-- One OHLCV bar of the input series (one row of the DataFrame). -/
structure Bar where
  date : ℕ
  high : ℚ
  low : ℚ
  close : ℚ
  volume : ℚ
deriving Repr, DecidableEq

/-- A recorded touch of a level, the dict `{date, price}` that
`Level.add_touch` (lines 31-35) appends to `self.touches`. -/
structure Touch where
  date : ℕ
  price : ℚ
deriving Repr, DecidableEq

/-- The `Level` class (lines 13-38). Its five attributes are exactly the
ones `__init__` and `add_touch` assign: `price`, `type`, `strength`,
`touches`, `last_test`. No other attribute is ever set on a Level anywhere
in the repository. -/
structure Level where
  price : ℚ
  type : String
  strength : ℕ
  touches : List Touch
  lastTest : Option ℕ
deriving Repr, DecidableEq

/-- `Level.__init__(price, level_type, strength=1)` (lines 16-29): empty
touch list, `last_test = None`. -/
def Level.init (price : ℚ) (ty : String) : Level :=
  { price := price, type := ty, strength := 1, touches := [], lastTest := none }

/-- `Level.add_touch(date, touch_price)` (lines 31-35): append the touch,
set `strength = len(self.touches)`, remember the date. -/
def Level.addTouch (l : Level) (date : ℕ) (touchPrice : ℚ) : Level :=
  let ts := l.touches ++ [⟨date, touchPrice⟩]
  { l with touches := ts, strength := ts.length, lastTest := some date }

/-! ## Pivot detector: scipy.signal.argrelextrema with mode='clip' -/

/-- `np.take(data, i, mode='clip')`: the index is clamped into range from
above; the clamp from below is ℕ subtraction at the call sites. -/
def takeClip (data : List ℚ) (i : ℕ) : ℚ :=
  data.getD (min i (data.length - 1)) 0

/-- `scipy.signal._peak_finding._boolrelextrema(data, comparator, order)`
with the default boundary mode `clip`: index `i` is kept when
`comparator(data[i], data[clip(i+s)])` and
`comparator(data[i], data[clip(i-s)])` hold for every shift
`1 ≤ s ≤ order`. -/
def relExtremaIndices (data : List ℚ) (cmp : ℚ → ℚ → Bool) (order : ℕ) :
    List ℕ :=
  (List.range data.length).filter fun i =>
    (List.range order).all fun s =>
      cmp (takeClip data i) (takeClip data (i + (s + 1))) &&
      cmp (takeClip data i) (takeClip data (i - (s + 1)))

/-- `argrelextrema(df['Low'].values, np.less_equal, order=w)` of
`_find_pivot_levels` (lines 115-119). -/
def swingLowIndices (lows : List ℚ) (w : ℕ) : List ℕ :=
  relExtremaIndices lows (fun a b => decide (a ≤ b)) w

/-- `argrelextrema(df['High'].values, np.greater_equal, order=w)` of
`_find_pivot_levels` (lines 131-135). -/
def swingHighIndices (highs : List ℚ) (w : ℕ) : List ℕ :=
  relExtremaIndices highs (fun a b => decide (b ≤ a)) w

/-! ## Consolidation -/

/-- Stable insertion into a sorted list (Python `sorted` is stable: a later
element is inserted behind the equal-keyed ones already present, which the
`r a b` test placement mirrors). -/
def orderedInsertBy (r : Level → Level → Bool) (a : Level) :
    List Level → List Level
  | [] => [a]
  | b :: l => if r a b then a :: b :: l else b :: orderedInsertBy r a l

/-- Stable insertion sort, the embedding of Python `sorted(levels, key=...)`. -/
def sortLevelsBy (r : Level → Level → Bool) : List Level → List Level
  | [] => []
  | a :: l => orderedInsertBy r a (sortLevelsBy r l)

/-- `sorted(levels, key=lambda x: x.price)` (line 270). -/
def sortByPrice : List Level → List Level :=
  sortLevelsBy fun a b => decide (a.price ≤ b.price)

/-- The nested touch iteration of `_merge_levels` (lines 312-314) visits the
members' touch lists in member order. -/
def allTouches (g : List Level) : List Touch :=
  (g.map Level.touches).flatten

/-- Lines 304-306 of `_merge_levels`: the weights are the `strength`
attribute values (`total_weight = sum(l.strength ...)`). -/
def weightedPrice (g : List Level) : ℚ :=
  (g.map fun l => l.price * (l.strength : ℚ)).sum
    / (((g.map Level.strength).sum : ℕ) : ℚ)

/-- `LevelDetector._merge_levels` (lines 293-316): fresh Level at the
strength-weighted average price, then every member touch re-added in
member order. -/
def mergeLevels (g : List Level) (ty : String) : Level :=
  g.foldl (fun m l => l.touches.foldl (fun m2 t => m2.addTouch t.date t.price) m)
    (Level.init (weightedPrice g) ty)

/-- `np.mean([l.price for l in current_group])` (line 277). -/
def groupMean (g : List Level) : ℚ :=
  (g.map Level.price).sum / (g.length : ℚ)

/-- The grouping loop of `_consolidate_levels` (lines 272-289): admit the
next level when it is within `tol` of the running unweighted mean of the
current group, otherwise close the group. -/
def consolidateLoop (tol : ℚ) (ty : String) :
    List Level → List Level → List Level → List Level
  | [], group, acc =>
      if group.isEmpty then acc else acc ++ [mergeLevels group ty]
  | l :: ls, group, acc =>
      if |l.price - groupMean group| ≤ tol then
        consolidateLoop tol ty ls (group ++ [l]) acc
      else
        consolidateLoop tol ty ls [l] (acc ++ [mergeLevels group ty])

/-- `LevelDetector._consolidate_levels` (lines 255-291). -/
def consolidateLevels (tol : ℚ) (levels : List Level) (ty : String) :
    List Level :=
  match sortByPrice levels with
  | [] => []
  | l :: ls => consolidateLoop tol ty ls [l] []

/-- Lines 88-97 of `find_support_resistance` restricted to one side:
consolidate, keep the levels with `strength >= min_touches`, sort by
strength descending (Python `list.sort(reverse=True)` is stable). -/
def selectLevels (tol : ℚ) (minT : ℕ) (ty : String) (levels : List Level) :
    List Level :=
  sortLevelsBy (fun a b => decide (b.strength ≤ a.strength))
    ((consolidateLevels tol levels ty).filter fun l => decide (minT ≤ l.strength))

/-! ## Volume-profile detector: per-bar volume distribution -/

/-- Python built-in `round`: banker's rounding, half to even. -/
def pyRound (q : ℚ) : ℤ :=
  if q - ⌊q⌋ < 1 / 2 then ⌊q⌋
  else if (1 : ℚ) / 2 < q - ⌊q⌋ then ⌊q⌋ + 1
  else if Even ⌊q⌋ then ⌊q⌋ else ⌊q⌋ + 1

/-- `round(price / bin_size) * bin_size` (lines 169, 176, 232). -/
def binKey (price binSize : ℚ) : ℚ :=
  (pyRound (price / binSize) : ℚ) * binSize

/-- `int(price_range_day / bin_size) + 1` (line 227); for the positive
ratios reaching this line Python `int` truncation is the floor. -/
def numBinsTouched (low high binSize : ℚ) : ℤ :=
  ⌊(high - low) / binSize⌋ + 1

/-- Per-bar volume distribution of `_find_volume_levels` (lines 223-234):
a bar with positive range adds `volume / num_bins_touched` to the bin of
each sample price `low`, `low + bin_size`, ... while the sample is
`≤ high` — for `bin_size > 0` the while loop of lines 230-234 runs exactly
`⌊(high-low)/bin_size⌋ + 1` times, the same count as line 227 — and a bar
with `high ≤ low` is skipped entirely by the `price_range_day > 0` guard
of line 226. -/
def barContributions (low high vol binSize : ℚ) : List (ℚ × ℚ) :=
  if 0 < high - low then
    (List.range (numBinsTouched low high binSize).toNat).map fun j : ℕ =>
      (binKey (low + (j : ℚ) * binSize) binSize,
        vol / ((numBinsTouched low high binSize : ℤ) : ℚ))
  else []

/-! ## Bounce quality -/

/-- `pandas.Series.max` of a nonempty window (the `[]` case is never taken
by the caller, which guarantees three elements). -/
def listMax : List ℚ → ℚ
  | [] => 0
  | x :: xs => xs.foldl max x

/-- `pandas.Series.min` of a nonempty window. -/
def listMin : List ℚ → ℚ
  | [] => 0
  | x :: xs => xs.foldl min x

/-- One iteration of the touch loop of `_calculate_bounce_quality`
(lines 403-423): `none` when the touch is skipped (`continue`), i.e. the
touch date is not in the index or fewer than 3 bars remain after it;
otherwise whether the 3-bar look-ahead window bounced. -/
def touchCheck (l : Level) (df : List Bar) (t : Touch) : Option Bool :=
  match df.findIdx? (fun b => b.date == t.date) with
  | none => none
  | some idx =>
      if df.length ≤ idx + 3 then none
      else
        let window := ((df.drop (idx + 1)).take 3).map Bar.close
        if l.type = "support" then some (decide (t.price < listMax window))
        else some (decide (listMin window < t.price))

/-- `LevelDetector._calculate_bounce_quality` (lines 389-428). -/
def calculateBounceQuality (l : Level) (df : List Bar) : ℚ :=
  if l.touches = [] ∨ df.length < 5 then 3 / 10
  else
    let results := l.touches.filterMap (touchCheck l df)
    if results.length = 0 then 3 / 10
    else (results.count true : ℚ) / (results.length : ℚ)

/-! ## The raising pipeline -/

/-- The Python exceptions the module can raise. The repository defines no
`InvalidSeriesError` (or any custom exception class) anywhere. -/
inductive PyError where
  | typeError
  | nameError
  | valueError
  | attributeError
deriving Repr, DecidableEq

/-- `LevelDetector._find_pivot_levels` (lines 101-147). `argrelextrema`
raises ValueError for `order < 1`; each detected extremum then calls
`level.add_touch(date, price, volume)` (lines 127, 143) against the
two-parameter signature of line 31, a TypeError; and when neither loop
runs an iteration, line 146 reads the undefined module name `logger`, a
NameError. Every path raises, so no level list is ever produced. -/
def findPivotLevels (df : List Bar) (w : ℕ) :
    Except PyError (List Level × List Level) :=
  if w = 0 then Except.error PyError.valueError
  else if swingLowIndices (df.map Bar.low) w ≠ [] then
    Except.error PyError.typeError
  else if swingHighIndices (df.map Bar.high) w ≠ [] then
    Except.error PyError.typeError
  else Except.error PyError.nameError

/-- `LevelDetector._find_clustered_levels` (lines 149-197): any bin holding
two or more touches triggers the three-argument `add_touch` call of
line 185 or 193 (TypeError); otherwise line 196 reads the undefined
`logger` (NameError). Every path raises. -/
def findClusteredLevels (df : List Bar) (tol : ℚ) :
    Except PyError (List Level × List Level) :=
  let binSize := max tol ((listMax (df.map Bar.high) - listMin (df.map Bar.low)) / 100)
  let lowKeys := df.map fun b => binKey b.low binSize
  let highKeys := df.map fun b => binKey b.high binSize
  if lowKeys.any (fun k => decide (2 ≤ lowKeys.countP fun x => decide (x = k))) then
    Except.error PyError.typeError
  else if highKeys.any (fun k => decide (2 ≤ highKeys.countP fun x => decide (x = k))) then
    Except.error PyError.typeError
  else Except.error PyError.nameError

/-- `LevelDetector.find_support_resistance` (lines 58-99). There is no input
validation of any kind before the detectors run. Line 69 calls the pivot
detector, line 72 the cluster detector (both raise on every input, see
above); were both to return, the volume and fibonacci detectors of lines
75-79 return normally under the default configuration and line 85 then
reads the undefined module name `logger`, a NameError. -/
def findSupportResistance (df : List Bar) (w : ℕ) (tol : ℚ) :
    Except PyError (List Level × List Level) :=
  (findPivotLevels df w).bind fun _ =>
    (findClusteredLevels df tol).bind fun _ =>
      Except.error PyError.nameError

/-- `LevelDetector.calculate_level_strength_score` (lines 346-387).
Factors 1-3 (lines 358-372) compute, then line 375 evaluates
`level.avg_volume_at_level`: the `Level` class defines no such attribute
and no code in the repository ever assigns one, so every call raises
AttributeError before a score is returned. -/
def calculateLevelStrengthScore (level : Level) (df : List Bar) :
    Except PyError ℚ :=
  let touchScore := min ((level.strength : ℚ) / 6) 1 * (3 / 10)
  let recencyScore : ℚ :=
    match level.lastTest with
    | some d =>
        let daysAgo : ℤ := (((df.map Bar.date).getLast?.getD 0 : ℕ) : ℤ) - (d : ℤ)
        max 0 (1 - (daysAgo : ℚ) / 90) * (1 / 5)
    | none => 0
  let bounceScore := calculateBounceQuality level df * (1 / 4)
  let _score := touchScore + recencyScore + bounceScore
  Except.error PyError.attributeError

/-! ## Lemmas: argrelextrema characterization -/

lemma takeClip_of_lt {data : List ℚ} {i : ℕ} (h : i < data.length) :
    takeClip data i = data.getD i 0 := by
  unfold takeClip
  congr 1
  omega

/-- Index membership for `_boolrelextrema` with mode `clip`: `i` is marked
exactly when it is in range and `data[i]` relates to every entry of the
window `[i-w, i+w]` clamped into `[0, n-1]`. -/
lemma relExtrema_mem_iff (data : List ℚ) (P : ℚ → ℚ → Prop) [DecidableRel P]
    (hrefl : ∀ x, P x x) (w i : ℕ) :
    i ∈ relExtremaIndices data (fun a b => decide (P a b)) w ↔
      i < data.length ∧ ∀ j, i - w ≤ j → j ≤ min (i + w) (data.length - 1) →
        P (data.getD i 0) (data.getD j 0) := by
  unfold relExtremaIndices
  simp only [List.mem_filter, List.mem_range, List.all_eq_true,
    Bool.and_eq_true, decide_eq_true_eq]
  constructor
  · rintro ⟨hi, hall⟩
    refine ⟨hi, fun j hj1 hj2 => ?_⟩
    rcases lt_trichotomy j i with hlt | heq | hgt
    · have h2 := (hall _ (show i - j - 1 < w by omega)).2
      rw [takeClip_of_lt hi] at h2
      have hidx : i - (i - j - 1 + 1) = j := by omega
      rw [hidx] at h2
      rwa [takeClip_of_lt (by omega : j < data.length)] at h2
    · subst heq
      exact hrefl _
    · have h2 := (hall _ (show j - i - 1 < w by omega)).1
      rw [takeClip_of_lt hi] at h2
      have hidx : i + (j - i - 1 + 1) = j := by omega
      rw [hidx] at h2
      rwa [takeClip_of_lt (by omega : j < data.length)] at h2
  · rintro ⟨hi, hall⟩
    refine ⟨hi, fun s hs => ?_⟩
    constructor
    · have hj : takeClip data (i + (s + 1)) =
          data.getD (min (i + (s + 1)) (data.length - 1)) 0 := rfl
      rw [takeClip_of_lt hi, hj]
      exact hall _ (by omega) (by omega)
    · have hj : takeClip data (i - (s + 1)) = data.getD (i - (s + 1)) 0 := by
        rw [takeClip_of_lt (by omega : i - (s + 1) < data.length)]
      rw [takeClip_of_lt hi, hj]
      exact hall _ (by omega) (by omega)

/-- C2 (amended): with scipy's default boundary mode `clip`, the pivot
detector marks index `i` as a swing low exactly when `Low[i]` is
less-than-or-equal to every Low in the window `[i-w, i+w]` CLAMPED into
`[0, n-1]` (swing highs symmetric with greater-than-or-equal); for interior
indices `w ≤ i < n-w` this coincides with the spec's un-clamped window, but
boundary indices are evaluated too (with the clamped window), not skipped;
the 10-bar scenario still marks index 2 as a swing low. -/
theorem swing_detection_characterization :
    (∀ lows w i, i ∈ swingLowIndices lows w ↔
        i < lows.length ∧ ∀ j, i - w ≤ j → j ≤ min (i + w) (lows.length - 1) →
          lows.getD i 0 ≤ lows.getD j 0) ∧
    (∀ highs w i, i ∈ swingHighIndices highs w ↔
        i < highs.length ∧ ∀ j, i - w ≤ j → j ≤ min (i + w) (highs.length - 1) →
          highs.getD j 0 ≤ highs.getD i 0) ∧
    (∀ lows w i, w ≤ i → i + w < lows.length →
        (i ∈ swingLowIndices lows w ↔
          ∀ j, i - w ≤ j → j ≤ i + w → lows.getD i 0 ≤ lows.getD j 0)) ∧
    2 ∈ swingLowIndices [10, 9, 8, 9, 10, 10, 9, 8, 9, 10] 2 := by
  have hlow : ∀ lows w i, i ∈ swingLowIndices lows w ↔
      i < lows.length ∧ ∀ j, i - w ≤ j → j ≤ min (i + w) (lows.length - 1) →
        lows.getD i 0 ≤ lows.getD j 0 :=
    fun lows w i =>
      relExtrema_mem_iff lows (fun a b => a ≤ b) (fun x => le_refl x) w i
  refine ⟨hlow, ?_, ?_, ?_⟩
  · intro highs w i
    exact relExtrema_mem_iff highs (fun a b => b ≤ a) (fun x => le_refl x) w i
  · intro lows w i hwi hiw
    rw [hlow]
    constructor
    · rintro ⟨_, h⟩ j h1 h2
      exact h j h1 (by omega)
    · intro h
      exact ⟨by omega, fun j h1 h2 => h j h1 (by omega)⟩
  · rw [hlow]
    refine ⟨by norm_num, ?_⟩
    intro j h1 h2
    have hj : j ≤ 4 := by
      simp only [List.length_cons, List.length_nil] at h2
      omega
    interval_cases j <;> norm_num [List.getD]

/-- C2 counterexample: on the strictly increasing 5-bar Low series
`[1, 2, 3, 4, 5]` with window 2, index 0 — which is within `w` of the left
boundary — is marked as a swing low, refuting the claim that no index
within `w` of either boundary is ever marked. -/
theorem swingLow_boundary_marked_cex :
    0 ∈ swingLowIndices [1, 2, 3, 4, 5] 2 ∧ 0 < 2 := by
  refine ⟨?_, by norm_num⟩
  refine (relExtrema_mem_iff [1, 2, 3, 4, 5] (fun a b => a ≤ b)
    (fun x => le_refl x) 2 0).mpr ⟨by norm_num, ?_⟩
  intro j h1 h2
  have hj : j ≤ 2 := by
    simp only [List.length_cons, List.length_nil] at h2
    omega
  interval_cases j <;> norm_num [List.getD]

/-! ## Lemmas: merging and sorting -/

/-- Replaying a list of touches onto a level: the price and type are kept,
the touches are appended, and whenever at least one touch is replayed the
strength becomes the final touch count and the last test the final date. -/
lemma foldl_addTouch_char (ts : List Touch) : ∀ l : Level,
    ts.foldl (fun m t => m.addTouch t.date t.price) l =
      { price := l.price, type := l.type,
        strength := if ts.isEmpty then l.strength else l.touches.length + ts.length,
        touches := l.touches ++ ts,
        lastTest := match ts.getLast? with
          | some t => some t.date
          | none => l.lastTest } := by
  induction ts with
  | nil => intro l; simp
  | cons t ts ih =>
      intro l
      rw [List.foldl_cons, ih]
      cases ts with
      | nil => simp [Level.addTouch]
      | cons u us =>
          simp [Level.addTouch, List.getLast?_cons_cons]
          constructor
          · omega
          · rfl

/-- The nested touch loops of `_merge_levels` replay the concatenation of
the member touch lists. -/
lemma mergeLevels_nested_foldl (g : List Level) : ∀ m : Level,
    g.foldl (fun m l => l.touches.foldl (fun m2 t => m2.addTouch t.date t.price) m) m
      = (allTouches g).foldl (fun m2 t => m2.addTouch t.date t.price) m := by
  induction g with
  | nil => intro m; simp [allTouches]
  | cons l g ih =>
      intro m
      rw [List.foldl_cons, ih]
      simp [allTouches, List.foldl_append]

/-- Record form of `_merge_levels`. -/
lemma mergeLevels_char (g : List Level) (ty : String) :
    mergeLevels g ty =
      { price := weightedPrice g, type := ty,
        strength := if (allTouches g).isEmpty then 1 else (allTouches g).length,
        touches := allTouches g,
        lastTest := (allTouches g).getLast?.map Touch.date } := by
  unfold mergeLevels
  rw [mergeLevels_nested_foldl, foldl_addTouch_char]
  cases h : (allTouches g).getLast? <;> simp [Level.init, h]

/-- A merged level always has positive strength. -/
lemma mergeLevels_strength_pos (g : List Level) (ty : String) :
    0 < (mergeLevels g ty).strength := by
  rw [mergeLevels_char]
  cases h : (allTouches g).isEmpty with
  | true => simp [h]
  | false =>
      simp only [h, Bool.false_eq_true, if_false]
      cases hT : allTouches g with
      | nil => rw [hT] at h; simp at h
      | cons t ts => simp

/-- Re-merging a single already-merged level reproduces it exactly. -/
lemma mergeLevels_remerge (g : List Level) (ty : String) :
    mergeLevels [mergeLevels g ty] ty = mergeLevels g ty := by
  have hpos : ((mergeLevels g ty).strength : ℚ) ≠ 0 := by
    have := mergeLevels_strength_pos g ty
    positivity
  have hw : weightedPrice [mergeLevels g ty] = (mergeLevels g ty).price := by
    unfold weightedPrice
    simp only [List.map_cons, List.map_nil, List.sum_cons, List.sum_nil,
      add_zero]
    rw [mul_div_assoc, div_self hpos, mul_one]
  have hall : allTouches [mergeLevels g ty] = allTouches g := by
    have h1 : allTouches [mergeLevels g ty] = (mergeLevels g ty).touches := by
      simp [allTouches]
    rw [h1, mergeLevels_char]
  have hw2 : weightedPrice [mergeLevels g ty] = weightedPrice g := by
    rw [hw, mergeLevels_char]
  conv_lhs => rw [mergeLevels_char]
  conv_rhs => rw [mergeLevels_char]
  rw [hall, hw2]

lemma mem_orderedInsertBy (r : Level → Level → Bool) (a : Level) :
    ∀ (l : List Level) (x : Level),
      x ∈ orderedInsertBy r a l ↔ x = a ∨ x ∈ l := by
  intro l
  induction l with
  | nil => intro x; simp [orderedInsertBy]
  | cons b l ih =>
      intro x
      cases hr : r a b with
      | true =>
          simp only [orderedInsertBy, hr, if_true, List.mem_cons]
      | false =>
          simp only [orderedInsertBy, hr, Bool.false_eq_true, if_false,
            List.mem_cons, ih]
          tauto

lemma mem_sortLevelsBy (r : Level → Level → Bool) :
    ∀ (l : List Level) (x : Level), x ∈ sortLevelsBy r l ↔ x ∈ l := by
  intro l
  induction l with
  | nil => intro x; simp [sortLevelsBy]
  | cons a l ih =>
      intro x
      simp only [sortLevelsBy, mem_orderedInsertBy, ih, List.mem_cons]

lemma pairwise_orderedInsertBy (r : Level → Level → Bool)
    (htot : ∀ x y, r x y = true ∨ r y x = true)
    (htrans : ∀ x y z, r x y = true → r y z = true → r x z = true)
    (a : Level) :
    ∀ l : List Level, l.Pairwise (fun x y => r x y = true) →
      (orderedInsertBy r a l).Pairwise (fun x y => r x y = true) := by
  intro l
  induction l with
  | nil => intro _; simp [orderedInsertBy]
  | cons b l ih =>
      intro hp
      rw [List.pairwise_cons] at hp
      cases hr : r a b with
      | true =>
          simp only [orderedInsertBy, hr, if_true]
          rw [List.pairwise_cons]
          refine ⟨?_, List.pairwise_cons.mpr hp⟩
          intro y hy
          rcases List.mem_cons.mp hy with rfl | hy
          · exact hr
          · exact htrans a b y hr (hp.1 y hy)
      | false =>
          have hba : r b a = true := by
            rcases htot a b with h | h
            · rw [h] at hr; cases hr
            · exact h
          simp only [orderedInsertBy, hr, Bool.false_eq_true, if_false]
          rw [List.pairwise_cons]
          refine ⟨?_, ih hp.2⟩
          intro y hy
          rcases (mem_orderedInsertBy r a l y).mp hy with rfl | hy
          · exact hba
          · exact hp.1 y hy

lemma pairwise_sortLevelsBy (r : Level → Level → Bool)
    (htot : ∀ x y, r x y = true ∨ r y x = true)
    (htrans : ∀ x y z, r x y = true → r y z = true → r x z = true) :
    ∀ l : List Level,
      (sortLevelsBy r l).Pairwise (fun x y => r x y = true) := by
  intro l
  induction l with
  | nil => simp [sortLevelsBy]
  | cons a l ih =>
      exact pairwise_orderedInsertBy r htot htrans a _ ih

lemma sortLevelsBy_eq_of_pairwise (r : Level → Level → Bool) :
    ∀ l : List Level, l.Pairwise (fun x y => r x y = true) →
      sortLevelsBy r l = l := by
  intro l
  induction l with
  | nil => intro _; rfl
  | cons a l ih =>
      intro hp
      rw [List.pairwise_cons] at hp
      simp only [sortLevelsBy]
      rw [ih hp.2]
      cases l with
      | nil => rfl
      | cons b l2 =>
          have hab : r a b = true := hp.1 b (by simp)
          simp [orderedInsertBy, hab]

/-- `sortByPrice` output is sorted by price. -/
lemma sortByPrice_pairwise (l : List Level) :
    (sortByPrice l).Pairwise (fun x y => x.price ≤ y.price) := by
  have h := pairwise_sortLevelsBy (fun a b => decide (a.price ≤ b.price))
    (fun x y => by
      rcases le_total x.price y.price with h | h
      · exact Or.inl (by simpa using h)
      · exact Or.inr (by simpa using h))
    (fun x y z hxy hyz => by
      simp only [decide_eq_true_eq] at hxy hyz ⊢
      exact le_trans hxy hyz) l
  exact h.imp fun hxy => by simpa using hxy

lemma mem_sortByPrice (l : List Level) (x : Level) :
    x ∈ sortByPrice l ↔ x ∈ l :=
  mem_sortLevelsBy _ l x

/-! ## Lemmas: group means under equal strengths -/

lemma sum_price_le (g : List Level) (p : ℚ) (h : ∀ x ∈ g, x.price ≤ p) :
    (g.map Level.price).sum ≤ (g.length : ℚ) * p := by
  induction g with
  | nil => simp
  | cons a g ih =>
      simp only [List.map_cons, List.sum_cons, List.length_cons]
      have h1 : a.price ≤ p := h a (by simp)
      have h2 : (g.map Level.price).sum ≤ (g.length : ℚ) * p :=
        ih fun x hx => h x (by simp [hx])
      push_cast
      nlinarith

lemma groupMean_le (g : List Level) (hg : g ≠ []) (p : ℚ)
    (h : ∀ x ∈ g, x.price ≤ p) : groupMean g ≤ p := by
  have hlen : (0 : ℚ) < (g.length : ℚ) := by
    have := List.length_pos.mpr hg
    exact_mod_cast this
  rw [groupMean, div_le_iff hlen]
  rw [mul_comm]
  exact sum_price_le g p h

lemma groupMean_le_append (g : List Level) (hg : g ≠ []) (l : Level)
    (h : ∀ x ∈ g, x.price ≤ l.price) :
    groupMean g ≤ groupMean (g ++ [l]) := by
  have hlen : (0 : ℚ) < (g.length : ℚ) := by
    have := List.length_pos.mpr hg
    exact_mod_cast this
  have hlen1 : (0 : ℚ) < ((g ++ [l]).length : ℚ) := by
    have : 0 < (g ++ [l]).length := by simp
    exact_mod_cast this
  unfold groupMean
  rw [div_le_div_iff hlen hlen1]
  have hsum : ((g ++ [l]).map Level.price).sum
      = (g.map Level.price).sum + l.price := by
    simp
  have hcount : (((g ++ [l]).length : ℕ) : ℚ) = (g.length : ℚ) + 1 := by
    push_cast [List.length_append, List.length_cons, List.length_nil]
    ring
  rw [hsum, hcount]
  have := sum_price_le g l.price h
  nlinarith

lemma sum_map_price_mul (g : List Level) (s : ℚ) :
    (g.map fun l => l.price * s).sum = (g.map Level.price).sum * s := by
  induction g with
  | nil => simp
  | cons a g ih =>
      simp only [List.map_cons, List.sum_cons, ih]
      ring

lemma sum_map_const_strength (g : List Level) (s : ℕ) :
    (g.map fun _ => s).sum = g.length * s := by
  induction g with
  | nil => simp
  | cons a g ih =>
      simp only [List.map_cons, List.sum_cons, List.length_cons, ih]
      ring

/-- Under equal positive strengths the merged price is the unweighted mean
of the member prices. -/
lemma mergeLevels_price_equal (g : List Level) (ty : String) (s : ℕ)
    (hs : 0 < s) (hall : ∀ l ∈ g, l.strength = s) :
    (mergeLevels g ty).price = groupMean g := by
  rw [mergeLevels_char]
  show weightedPrice g = groupMean g
  unfold weightedPrice groupMean
  have h1 : (g.map fun l => l.price * (l.strength : ℚ))
      = g.map (fun l => l.price * (s : ℚ)) :=
    List.map_congr_left fun l hl => by rw [hall l hl]
  have h2 : g.map Level.strength = g.map (fun _ => s) :=
    List.map_congr_left fun l hl => hall l hl
  rw [h1, h2, sum_map_price_mul, sum_map_const_strength]
  have hs' : ((s : ℕ) : ℚ) ≠ 0 := by
    exact_mod_cast hs.ne'
  push_cast
  exact mul_div_mul_right _ _ hs'

lemma groupMean_singleton (l : Level) : groupMean [l] = l.price := by
  simp [groupMean]

/-- Loop invariant of `_consolidate_levels` under equal positive strengths:
every already-closed level lies more than `tol` below the running group
mean, and the closed levels are pairwise more than `tol` apart; both are
preserved to the final output. -/
lemma consolidateLoop_sep (tol : ℚ) (ty : String) (s : ℕ) (hs : 0 < s) :
    ∀ rest group acc : List Level,
      group ≠ [] →
      (∀ l ∈ group, l.strength = s) →
      (∀ l ∈ rest, l.strength = s) →
      (∀ l ∈ rest, ∀ g ∈ group, g.price ≤ l.price) →
      rest.Pairwise (fun a b => a.price ≤ b.price) →
      (∀ a ∈ acc, a.price + tol < groupMean group) →
      acc.Pairwise (fun a b => a.price + tol < b.price) →
      (consolidateLoop tol ty rest group acc).Pairwise
        (fun a b => a.price + tol < b.price) := by
  intro rest
  induction rest with
  | nil =>
      intro group acc hg hgs _ _ _ hacc haccp
      cases group with
      | nil => exact absurd rfl hg
      | cons g0 gs =>
          simp only [consolidateLoop, List.isEmpty_cons, Bool.false_eq_true,
            if_false]
          rw [List.pairwise_append]
          refine ⟨haccp, List.pairwise_singleton _ _, ?_⟩
          intro a ha b hb
          rw [List.mem_singleton] at hb
          subst hb
          rw [mergeLevels_price_equal (g0 :: gs) ty s hs hgs]
          exact hacc a ha
  | cons l ls ih =>
      intro group acc hg hgs hrs hordered hrest hacc haccp
      rw [List.pairwise_cons] at hrest
      by_cases hcond : |l.price - groupMean group| ≤ tol
      · simp only [consolidateLoop, if_pos hcond]
        apply ih (group ++ [l]) acc
        · simp
        · intro x hx
          rcases List.mem_append.mp hx with hx | hx
          · exact hgs x hx
          · rw [List.mem_singleton] at hx
            subst hx
            exact hrs x (by simp)
        · intro x hx
          exact hrs x (by simp [hx])
        · intro x hx g hgm
          rcases List.mem_append.mp hgm with hgm | hgm
          · exact hordered x (by simp [hx]) g hgm
          · rw [List.mem_singleton] at hgm
            subst hgm
            exact hrest.1 x hx
        · exact hrest.2
        · intro a ha
          refine lt_of_lt_of_le (hacc a ha) ?_
          exact groupMean_le_append group hg l
            (fun x hx => hordered l (by simp) x hx)
        · exact haccp
      · simp only [consolidateLoop, if_neg hcond]
        have hmean_le : groupMean group ≤ l.price :=
          groupMean_le group hg l.price (fun x hx => hordered l (by simp) x hx)
        have hlt : groupMean group + tol < l.price := by
          have h1 : tol < |l.price - groupMean group| := not_le.mp hcond
          rw [abs_of_nonneg (by linarith)] at h1
          linarith
        apply ih [l] (acc ++ [mergeLevels group ty])
        · simp
        · intro x hx
          rw [List.mem_singleton] at hx
          subst hx
          exact hrs x (by simp)
        · intro x hx
          exact hrs x (by simp [hx])
        · intro x hx g hgm
          rw [List.mem_singleton] at hgm
          subst hgm
          exact hrest.1 x hx
        · exact hrest.2
        · intro a ha
          rw [groupMean_singleton]
          rcases List.mem_append.mp ha with ha | ha
          · exact lt_of_lt_of_le (lt_of_lt_of_le (hacc a ha) hmean_le)
              (le_refl _)
          · rw [List.mem_singleton] at ha
            subst ha
            rw [mergeLevels_price_equal group ty s hs hgs]
            exact hlt
        · rw [List.pairwise_append]
          refine ⟨haccp, List.pairwise_singleton _ _, ?_⟩
          intro a ha b hb
          rw [List.mem_singleton] at hb
          subst hb
          rw [mergeLevels_price_equal group ty s hs hgs]
          exact hacc a ha

/-- Under equal positive strengths, consecutive consolidated levels are more
than `tol` apart in the strong (ordered) sense. -/
lemma consolidateLevels_sep (tol : ℚ) (ty : String) (s : ℕ) (hs : 0 < s)
    (levels : List Level) (hall : ∀ l ∈ levels, l.strength = s) :
    (consolidateLevels tol levels ty).Pairwise
      (fun a b => a.price + tol < b.price) := by
  unfold consolidateLevels
  cases hsort : sortByPrice levels with
  | nil => simp
  | cons m ms =>
      have hpw : (m :: ms).Pairwise (fun a b => a.price ≤ b.price) := by
        rw [← hsort]
        exact sortByPrice_pairwise levels
      rw [List.pairwise_cons] at hpw
      have hmem : ∀ x ∈ m :: ms, x.strength = s := by
        intro x hx
        refine hall x ?_
        rw [← mem_sortByPrice levels x, hsort]
        exact hx
      apply consolidateLoop_sep tol ty s hs ms [m] []
      · simp
      · intro x hx
        rw [List.mem_singleton] at hx
        subst hx
        exact hmem x (by simp)
      · intro x hx
        exact hmem x (by simp [hx])
      · intro x hx g hgm
        rw [List.mem_singleton] at hgm
        subst hgm
        exact hpw.1 x hx
      · exact hpw.2
      · intro a ha
        exact absurd ha (List.not_mem_nil a)
      · exact List.Pairwise.nil

/-- Every level the loop emits is the merge of some nonempty group. -/
lemma consolidateLoop_forms (tol : ℚ) (ty : String) :
    ∀ rest group acc : List Level,
      group ≠ [] →
      (∀ m ∈ acc, ∃ g, g ≠ [] ∧ m = mergeLevels g ty) →
      ∀ m ∈ consolidateLoop tol ty rest group acc,
        ∃ g, g ≠ [] ∧ m = mergeLevels g ty := by
  intro rest
  induction rest with
  | nil =>
      intro group acc hg hacc m hm
      cases group with
      | nil => exact absurd rfl hg
      | cons g0 gs =>
          simp only [consolidateLoop, List.isEmpty_cons, Bool.false_eq_true,
            if_false] at hm
          rcases List.mem_append.mp hm with hm | hm
          · exact hacc m hm
          · rw [List.mem_singleton] at hm
            exact ⟨g0 :: gs, by simp, hm⟩
  | cons l ls ih =>
      intro group acc hg hacc m hm
      by_cases hcond : |l.price - groupMean group| ≤ tol
      · simp only [consolidateLoop, if_pos hcond] at hm
        exact ih (group ++ [l]) acc (by simp) hacc m hm
      · simp only [consolidateLoop, if_neg hcond] at hm
        refine ih [l] (acc ++ [mergeLevels group ty]) (by simp) ?_ m hm
        intro x hx
        rcases List.mem_append.mp hx with hx | hx
        · exact hacc x hx
        · rw [List.mem_singleton] at hx
          exact ⟨group, hg, hx⟩

lemma consolidateLevels_forms (tol : ℚ) (ty : String) (levels : List Level) :
    ∀ m ∈ consolidateLevels tol levels ty,
      ∃ g, g ≠ [] ∧ m = mergeLevels g ty := by
  unfold consolidateLevels
  cases hsort : sortByPrice levels with
  | nil =>
      intro m hm
      exact absurd hm (List.not_mem_nil m)
  | cons a ms =>
      exact consolidateLoop_forms tol ty ms [a] [] (by simp)
        (fun x hx => absurd hx (List.not_mem_nil x))

/-- When the pending elements are each more than `tol` above the running
singleton groups and each is a fixpoint of singleton merging, the loop
copies them through unchanged. -/
lemma consolidateLoop_singleton (tol : ℚ) (ty : String) :
    ∀ (rest : List Level) (a : Level) (acc : List Level),
      (a :: rest).Pairwise (fun x y => x.price + tol < y.price) →
      (∀ x ∈ a :: rest, mergeLevels [x] ty = x) →
      consolidateLoop tol ty rest [a] acc = acc ++ a :: rest := by
  intro rest
  induction rest with
  | nil =>
      intro a acc _ hcan
      simp only [consolidateLoop, List.isEmpty_cons, Bool.false_eq_true,
        if_false]
      rw [hcan a (by simp)]
  | cons l ls ih =>
      intro a acc hsep hcan
      rw [List.pairwise_cons] at hsep
      have hla : a.price + tol < l.price := hsep.1 l (by simp)
      have hcond : ¬ |l.price - groupMean [a]| ≤ tol := by
        rw [groupMean_singleton]
        intro h
        have h2 : l.price - a.price ≤ |l.price - a.price| := le_abs_self _
        linarith
      simp only [consolidateLoop, if_neg hcond]
      rw [hcan a (by simp)]
      rw [ih l (acc ++ [a]) hsep.2 (fun x hx => hcan x (by simp [hx]))]
      simp

/-- C3 (amended): when all candidate levels carry one and the same positive
strength (so strength-weighted merging coincides with unweighted
averaging), any two distinct consolidated levels of one side are strictly
more than `price_tolerance` apart. With mixed strengths the weighted merge
price can drift away from the grouping mean and two outputs can land
within tolerance (see the counterexample). -/
theorem consolidate_equal_strength_separation (levels : List Level)
    (tol : ℚ) (ty : String) (s : ℕ) (hs : 0 < s)
    (hall : ∀ l ∈ levels, l.strength = s) :
    (consolidateLevels tol levels ty).Pairwise
      (fun a b => tol < |a.price - b.price|) := by
  refine (consolidateLevels_sep tol ty s hs levels hall).imp ?_
  intro a b hab
  have h1 : tol < b.price - a.price := by linarith
  calc tol < b.price - a.price := h1
    _ = -(a.price - b.price) := by ring
    _ ≤ |a.price - b.price| := neg_le_abs _

theorem consolidate_equal_strength_separation_witness :
    (consolidateLevels 1
        [⟨0, "support", 1, [], none⟩, ⟨5, "support", 1, [], none⟩]
        "support").Pairwise (fun a b => (1 : ℚ) < |a.price - b.price|) :=
  consolidate_equal_strength_separation _ 1 "support" 1 (by norm_num)
    (by simp)

/-- C3 counterexample: with `price_tolerance = 1` and candidates at prices
0 (strength 1), 1 (strength 9) and 8/5 (strength 1), the consolidator
produces two levels at 9/10 and 8/5, whose distance 7/10 is NOT strictly
greater than the tolerance — refuting the claimed output separation. -/
theorem consolidate_within_tolerance_cex :
    ((consolidateLevels 1
        [⟨0, "support", 1, [], none⟩, ⟨1, "support", 9, [], none⟩,
          ⟨8 / 5, "support", 1, [], none⟩] "support").map Level.price
      = [9 / 10, 8 / 5]) ∧ ¬ ((1 : ℚ) < |(9 / 10 : ℚ) - 8 / 5|) := by
  constructor
  · norm_num [consolidateLevels, sortByPrice, sortLevelsBy, orderedInsertBy,
      consolidateLoop, groupMean, mergeLevels, weightedPrice, allTouches,
      Level.init, abs_le]
  · rw [abs_of_nonpos (by norm_num)]
    norm_num

/-- C4 (amended): for a nonnegative tolerance and candidates of one and the
same positive strength, consolidation is idempotent: re-running the
consolidator on its own output returns the output unchanged. With mixed
strengths two outputs can land within tolerance and a second run merges
them (see the counterexample). -/
theorem consolidate_idempotent_equal_strength (levels : List Level)
    (tol : ℚ) (ty : String) (s : ℕ) (htol : 0 ≤ tol) (hs : 0 < s)
    (hall : ∀ l ∈ levels, l.strength = s) :
    consolidateLevels tol (consolidateLevels tol levels ty) ty
      = consolidateLevels tol levels ty := by
  have hsep := consolidateLevels_sep tol ty s hs levels hall
  have hcan : ∀ x ∈ consolidateLevels tol levels ty,
      mergeLevels [x] ty = x := by
    intro x hx
    obtain ⟨g, _, rfl⟩ := consolidateLevels_forms tol ty levels x hx
    exact mergeLevels_remerge g ty
  have hsorted : (consolidateLevels tol levels ty).Pairwise
      (fun x y => (fun a b => decide (a.price ≤ b.price)) x y = true) :=
    hsep.imp fun h => by
      simp only [decide_eq_true_eq]
      linarith
  have hsort_eq : sortByPrice (consolidateLevels tol levels ty)
      = consolidateLevels tol levels ty :=
    sortLevelsBy_eq_of_pairwise _ _ hsorted
  conv_lhs => rw [consolidateLevels.eq_def]
  rw [hsort_eq]
  cases hout : consolidateLevels tol levels ty with
  | nil => rfl
  | cons m ms =>
      have hsep' : (m :: ms).Pairwise (fun x y => x.price + tol < y.price) := by
        rw [← hout]
        exact hsep
      have hcan' : ∀ x ∈ m :: ms, mergeLevels [x] ty = x := by
        rw [← hout]
        exact hcan
      exact (consolidateLoop_singleton tol ty ms m [] hsep' hcan').trans
        (by simp)

theorem consolidate_idempotent_equal_strength_witness :
    consolidateLevels 1 (consolidateLevels 1
        [⟨0, "support", 1, [], none⟩, ⟨5, "support", 1, [], none⟩]
        "support") "support"
      = consolidateLevels 1
        [⟨0, "support", 1, [], none⟩, ⟨5, "support", 1, [], none⟩]
        "support" :=
  consolidate_idempotent_equal_strength _ 1 "support" 1 (by norm_num)
    (by norm_num) (by simp)

/-- C4 counterexample: on the mixed-strength input of the C3 counterexample
the first consolidation run yields two levels (9/10 and 8/5, within
tolerance of each other) and a second run merges them into one — so
re-running the consolidator on its own output does NOT yield the same set
of levels. -/
theorem consolidate_not_idempotent_cex :
    consolidateLevels 1 (consolidateLevels 1
        [⟨0, "support", 1, [], none⟩, ⟨1, "support", 9, [], none⟩,
          ⟨8 / 5, "support", 1, [], none⟩] "support") "support"
      ≠ consolidateLevels 1
        [⟨0, "support", 1, [], none⟩, ⟨1, "support", 9, [], none⟩,
          ⟨8 / 5, "support", 1, [], none⟩] "support" := by
  norm_num [consolidateLevels, sortByPrice, sortLevelsBy, orderedInsertBy,
    consolidateLoop, groupMean, mergeLevels, weightedPrice, allTouches,
    Level.init, abs_le]

/-- Modelled from the spec wording of the merge rule: the touch-COUNT
weighted average price of a group, weighting each member by the length of
its touch list (for comparison with the strength-field weighting the code
actually performs). -/
def specTouchCountWeightedPrice (g : List Level) : ℚ :=
  (g.map fun l => l.price * (l.touches.length : ℚ)).sum
    / (((g.map fun l => l.touches.length).sum : ℕ) : ℚ)

/-- C5 (amended): the merged level's price is the average of the member
prices weighted by the `strength` ATTRIBUTE (which equals the touch count
only for members whose strength was set by `add_touch`; volume-profile
candidates carry strength 2 with an empty touch list), and its touch list
is the concatenation of the member touch lists in member order (NOT
re-sorted chronologically). -/
theorem merge_strength_weighted_concat (g : List Level) (ty : String) :
    (mergeLevels g ty).price =
      (g.map fun l => l.price * (l.strength : ℚ)).sum
        / (((g.map Level.strength).sum : ℕ) : ℚ) ∧
    (mergeLevels g ty).touches = (g.map Level.touches).flatten := by
  rw [mergeLevels_char]
  exact ⟨rfl, rfl⟩

/-- C5 counterexample: merging the group with (price 0, strength 1, one
touch dated 5) and (price 1, strength 2, one touch dated 1) gives price
2/3 — not the touch-count-weighted average 1/2 — and the touch list
[date 5, date 1], which is not in chronological order. -/
theorem merge_not_touch_count_weighted_cex :
    (mergeLevels [⟨0, "support", 1, [⟨5, 0⟩], none⟩,
        ⟨1, "support", 2, [⟨1, 1⟩], none⟩] "support").price = 2 / 3 ∧
    specTouchCountWeightedPrice
        [⟨0, "support", 1, [⟨5, 0⟩], none⟩, ⟨1, "support", 2, [⟨1, 1⟩], none⟩]
      = 1 / 2 ∧
    (2 / 3 : ℚ) ≠ 1 / 2 ∧
    (mergeLevels [⟨0, "support", 1, [⟨5, 0⟩], none⟩,
        ⟨1, "support", 2, [⟨1, 1⟩], none⟩] "support").touches
      = [⟨5, 0⟩, ⟨1, 1⟩] ∧
    ¬ (([⟨5, 0⟩, ⟨1, 1⟩] : List Touch).Pairwise
        fun t u => t.date ≤ u.date) := by
  refine ⟨?_, ?_, by norm_num, ?_, ?_⟩
  · norm_num [mergeLevels, weightedPrice, allTouches, Level.init,
      Level.addTouch]
  · norm_num [specTouchCountWeightedPrice]
  · norm_num [mergeLevels, weightedPrice, allTouches, Level.init,
      Level.addTouch]
  · intro h
    rw [List.pairwise_cons] at h
    have h5 := h.1 ⟨1, 1⟩ (by simp)
    simp at h5

/-- C6 (amended): every level surviving the minimum-touch filter has
`strength` (the attribute the filter actually tests) at least
`min_touches`, and its touch count is at least `min_touches` whenever its
touch list is nonempty; a consolidated level with an empty touch list
(possible when all group members are touchless volume-profile candidates)
carries strength 1 and passes the filter for `min_touches = 1` with zero
touches. -/
theorem select_levels_strength_bound (tol : ℚ) (minT : ℕ) (ty : String)
    (levels : List Level) :
    ∀ l ∈ selectLevels tol minT ty levels,
      minT ≤ l.strength ∧ (l.touches ≠ [] → minT ≤ l.touches.length) := by
  intro l hl
  unfold selectLevels at hl
  rw [mem_sortLevelsBy] at hl
  rw [List.mem_filter] at hl
  obtain ⟨hmem, hfil⟩ := hl
  have hstr : minT ≤ l.strength := by simpa using hfil
  refine ⟨hstr, fun hne => ?_⟩
  obtain ⟨g, _, rfl⟩ := consolidateLevels_forms tol ty levels l hmem
  rw [mergeLevels_char] at hstr hne ⊢
  simp only at hstr hne ⊢
  cases h : (allTouches g).isEmpty with
  | true =>
      rw [List.isEmpty_iff] at h
      exact absurd h hne
  | false =>
      rw [h] at hstr
      simpa using hstr

theorem select_levels_strength_bound_witness :
    2 ≤ (⟨5, "support", 2, [⟨1, 5⟩, ⟨2, 5⟩], some 2⟩ : Level).strength ∧
      ((⟨5, "support", 2, [⟨1, 5⟩, ⟨2, 5⟩], some 2⟩ : Level).touches ≠ [] →
        2 ≤ (⟨5, "support", 2, [⟨1, 5⟩, ⟨2, 5⟩],
          some 2⟩ : Level).touches.length) :=
  select_levels_strength_bound 1 2 "support"
    [⟨5, "support", 2, [⟨1, 5⟩, ⟨2, 5⟩], some 2⟩]
    ⟨5, "support", 2, [⟨1, 5⟩, ⟨2, 5⟩], some 2⟩
    (by norm_num [selectLevels, consolidateLevels, sortByPrice, sortLevelsBy,
      orderedInsertBy, consolidateLoop, groupMean, mergeLevels, weightedPrice,
      allTouches, Level.init, Level.addTouch, List.filter, abs_le])

/-- C6 counterexample: a single touchless strength-2 candidate (the shape
the volume-profile detector emits) consolidates into a level of strength 1
with an empty touch list; with `min_touches = 1` it passes the filter, yet
its touch count 0 is below `min_touches` — refuting the claim that every
final level has touch count (length of its touch list) at least
`min_touches`. -/
theorem min_touches_filter_cex :
    (selectLevels 1 1 "support" [⟨5, "support", 2, [], none⟩]).map
        (fun l => l.touches.length) = [0] ∧ ¬ (1 ≤ 0) := by
  refine ⟨?_, by norm_num⟩
  norm_num [selectLevels, consolidateLevels, sortByPrice, sortLevelsBy,
    orderedInsertBy, consolidateLoop, groupMean, mergeLevels, weightedPrice,
    allTouches, Level.init, abs_le, List.filter]

/-- C9 (amended): for a positive bin size, a bar with `High > Low`
distributes its entire volume in equal parts of
`volume / (⌊(High-Low)/bin_size⌋ + 1)` over its sampled bins, while a bar
with `High = Low` (zero range) is skipped by the `price_range_day > 0`
guard and contributes NOTHING — not its full volume to a single bin as the
claim states. -/
theorem volume_distribution_conservation (low high vol b : ℚ) (hb : 0 < b) :
    (0 < high - low →
      ((barContributions low high vol b).map Prod.snd).sum = vol ∧
      ∀ c ∈ barContributions low high vol b,
        c.2 = vol / ((numBinsTouched low high b : ℤ) : ℚ)) ∧
    (high - low ≤ 0 → barContributions low high vol b = []) := by
  constructor
  · intro hpos
    have hfl : 0 ≤ ⌊(high - low) / b⌋ := Int.floor_nonneg.mpr (by positivity)
    have hk : (0 : ℤ) < numBinsTouched low high b := by
      unfold numBinsTouched
      omega
    have hkQ : ((numBinsTouched low high b : ℤ) : ℚ) ≠ 0 := by
      exact_mod_cast hk.ne'
    constructor
    · unfold barContributions
      rw [if_pos hpos, List.map_map]
      have hconst : (Prod.snd ∘ fun j : ℕ =>
          (binKey (low + (j : ℚ) * b) b,
            vol / ((numBinsTouched low high b : ℤ) : ℚ)))
          = fun _ => vol / ((numBinsTouched low high b : ℤ) : ℚ) := rfl
      rw [hconst, List.map_const', List.sum_replicate, List.length_range,
        nsmul_eq_mul]
      have hcast : (((numBinsTouched low high b).toNat : ℕ) : ℚ)
          = ((numBinsTouched low high b : ℤ) : ℚ) := by
        have h1 : ((numBinsTouched low high b).toNat : ℤ)
            = numBinsTouched low high b := Int.toNat_of_nonneg hk.le
        exact_mod_cast h1
      rw [hcast, mul_comm, div_mul_cancel₀ vol hkQ]
    · intro c hc
      unfold barContributions at hc
      rw [if_pos hpos] at hc
      obtain ⟨j, _, rfl⟩ := List.mem_map.mp hc
      rfl
  · intro hneg
    unfold barContributions
    rw [if_neg (by linarith)]

theorem volume_distribution_conservation_witness :
    ((0 : ℚ) < 2 - 0 →
      ((barContributions 0 2 10 1).map Prod.snd).sum = 10 ∧
      ∀ c ∈ barContributions 0 2 10 1,
        c.2 = 10 / ((numBinsTouched 0 2 1 : ℤ) : ℚ)) ∧
    ((2 : ℚ) - 0 ≤ 0 → barContributions 0 2 10 1 = []) :=
  volume_distribution_conservation 0 2 10 1 (by norm_num)

/-- C9 counterexample: a bar with `High = Low = 5`, volume 10 and bin size
1 contributes an empty distribution — total volume placed 0, not the
claimed full volume 10 into its single bin. -/
theorem volume_zero_range_cex :
    barContributions 5 5 10 1 = [] ∧
    ((barContributions 5 5 10 1).map Prod.snd).sum = 0 ∧ (10 : ℚ) ≠ 0 := by
  have h : barContributions 5 5 10 1 = [] := by
    unfold barContributions
    rw [if_neg (by norm_num)]
  refine ⟨h, ?_, by norm_num⟩
  rw [h]
  simp

/-- C10: the bounce-quality sub-score is the 0.3 baseline whenever the
series has fewer than 5 bars, regardless of the level's touches; for a
series of at least 5 bars it is the baseline exactly when no touch is
eligible, and otherwise the fraction of eligible touches that bounced; a
touch is eligible exactly when its date occurs in the index and at least
3 bars remain after that position. -/
theorem bounce_quality_baseline_spec :
    (∀ (l : Level) (df : List Bar), df.length < 5 →
      calculateBounceQuality l df = 3 / 10) ∧
    (∀ (l : Level) (df : List Bar), 5 ≤ df.length →
      l.touches.filterMap (touchCheck l df) = [] →
      calculateBounceQuality l df = 3 / 10) ∧
    (∀ (l : Level) (df : List Bar) (r : List Bool), 5 ≤ df.length →
      l.touches.filterMap (touchCheck l df) = r → r ≠ [] →
      calculateBounceQuality l df = (r.count true : ℚ) / (r.length : ℚ)) ∧
    (∀ (l : Level) (df : List Bar) (t : Touch),
      (touchCheck l df t).isSome ↔
        ∃ i, df.findIdx? (fun b => b.date == t.date) = some i ∧
          i + 3 < df.length) := by
  refine ⟨?_, ?_, ?_, ?_⟩
  · intro l df h
    unfold calculateBounceQuality
    rw [if_pos (Or.inr h)]
  · intro l df h5 hnil
    unfold calculateBounceQuality
    by_cases ht : l.touches = []
    · rw [if_pos (Or.inl ht)]
    · rw [if_neg (by push_neg; exact ⟨ht, by omega⟩)]
      simp [hnil]
  · intro l df r h5 hr hne
    have ht : l.touches ≠ [] := by
      intro h
      rw [h] at hr
      simp at hr
      exact hne hr
    unfold calculateBounceQuality
    rw [if_neg (by push_neg; exact ⟨ht, by omega⟩)]
    simp only [hr]
    rw [if_neg (by simpa using hne)]
  · intro l df t
    unfold touchCheck
    cases hidx : df.findIdx? (fun b => b.date == t.date) with
    | none => simp
    | some idx =>
        by_cases hlen : df.length ≤ idx + 3
        · simp only [hlen, if_pos hlen]
          simp
          omega
        · simp only [if_neg hlen]
          by_cases hty : l.type = "support" <;> simp [hty]
          · omega
          · omega

/-- C1: the full level-detection call never returns a result — it raises on
EVERY input. The first detector invoked, `_find_pivot_levels`, either hits
the three-argument `add_touch` call against the two-parameter signature
(TypeError) at its first detected extremum, or — when no extremum exists —
reads the undefined module name `logger` (NameError); `argrelextrema`
itself raises ValueError when the pivot window is 0. -/
theorem find_support_resistance_always_raises :
    ∀ (df : List Bar) (w : ℕ) (tol : ℚ),
      ∃ e, findSupportResistance df w tol = Except.error e := by
  intro df w tol
  unfold findSupportResistance findPivotLevels
  by_cases h0 : w = 0
  · rw [if_pos h0]
    exact ⟨PyError.valueError, rfl⟩
  · rw [if_neg h0]
    by_cases h1 : swingLowIndices (df.map Bar.low) w ≠ []
    · rw [if_pos h1]
      exact ⟨PyError.typeError, rfl⟩
    · rw [if_neg h1]
      by_cases h2 : swingHighIndices (df.map Bar.high) w ≠ []
      · rw [if_pos h2]
        exact ⟨PyError.typeError, rfl⟩
      · rw [if_neg h2]
        exact ⟨PyError.nameError, rfl⟩

/-- C7: the strength scorer never returns a score. After computing the
touch, recency and bounce factors it reads `level.avg_volume_at_level`
(line 375), an attribute the `Level` class never defines and no code ever
assigns, so every call raises AttributeError — a score in `[0, 1]` is
never produced. -/
theorem strength_score_attribute_error :
    ∀ (level : Level) (df : List Bar),
      calculateLevelStrengthScore level df
        = Except.error PyError.attributeError := by
  intro level df
  rfl

/-- C8: a malformed, too-short series — a single bar with High 1 < Low 2 —
is NOT rejected with an `InvalidSeriesError` (no such class exists anywhere
in the repository, and `find_support_resistance` performs no validation);
the call instead proceeds straight into detection and dies with the
unrelated TypeError of the pivot detector's `add_touch` arity slip. -/
theorem invalid_series_not_rejected :
    findSupportResistance [⟨0, 1, 2, 1, 100⟩] 5 (1 / 200)
      = Except.error PyError.typeError := by
  have h0 : 0 ∈ swingLowIndices [(2 : ℚ)] 5 := by
    refine (relExtrema_mem_iff [(2 : ℚ)] (fun a b => a ≤ b)
      (fun x => le_refl x) 5 0).mpr ⟨by norm_num, ?_⟩
    intro j hj1 hj2
    have hj : j = 0 := by
      simp only [List.length_cons, List.length_nil] at hj2
      omega
    subst hj
    exact le_refl _
  have hne : swingLowIndices (List.map Bar.low [⟨0, 1, 2, 1, 100⟩]) 5 ≠ [] := by
    simp only [List.map_cons, List.map_nil]
    exact List.ne_nil_of_mem h0
  unfold findSupportResistance findPivotLevels
  rw [if_neg (by norm_num), if_pos hne]
  rfl
